import Mathlib

/-!
Verification of the segment-tree / RMQ / LCA implementation in
SegTree-RMQ-LCA.cpp, against its natural-language specification.

The C++ code is shallowly embedded:

* machine `int`s become `Int` (`Int.tdiv` is C++ integer division, which
  truncates toward zero);
* `vector<T>` becomes `List T`; an out-of-bounds `operator[]` read or write
  (undefined behavior in C++) is modelled as a failing `Option` access;
* the recursive `SegTree` constructor and the recursive `dfs` of `LCA` are
  given an explicit fuel argument bounding the recursion depth, so that a
  C++ execution that never terminates corresponds to `none` for every fuel;
  `fuel = length + 1` is always enough for the well-behaved inputs
  (proved below), so the fuel is invisible on the happy path;
* mutation (`update`, the dfs state) becomes explicit state passing.
-/

/-- Checked read of `a[i]` for an `Int` index: a negative or too-large index
is an out-of-bounds `vector::operator[]`, i.e. UB, modelled as `none`. -/
def listGet? {α : Type} (a : List α) (i : Int) : Option α :=
  if 0 ≤ i then a[i.toNat]? else none

/-- Checked write of `a[i] = v` for an `Int` index; out of bounds is UB,
modelled as `none`. -/
def listSet? {α : Type} (a : List α) (i : Int) (v : α) : Option (List α) :=
  if 0 ≤ i ∧ i.toNat < a.length then some (a.set i.toNat v) else none

/-- The node type of `SegTree<T>`: fields `left`, `right`, `mid`, `value`
as in the C++ struct.  The `children` vector of the source is empty at a
leaf and holds exactly the two subtrees `[children[0], children[1]]` at an
internal node, so it is rendered by the two constructors below; an access
`children[0]`/`children[1]` on an empty vector is UB and is modelled as a
failing (`none`) branch in the operations.  The function pointer `func` is
passed to each operation instead of being stored (the constructor stores
the same `func` in every node, so the two presentations agree). -/
inductive SegTree (α : Type) : Type where
  | leaf (left right mid : Int) (value : α)
  | node (left right mid : Int) (value : α) (child0 child1 : SegTree α)

/-- The `value` field of a node. -/
def SegTree.value {α : Type} : SegTree α → α
  | SegTree.leaf _ _ _ v => v
  | SegTree.node _ _ _ v _ _ => v

/-- The recursive body of the `SegTree` constructor
`SegTree(a, func, left, right)` for an explicit range (the `right == -1`
defaulting of the public entry point is in `SegTree.build`).  Mirrors
lines 35-55 of the source: `mid = (left + right)/2` with C++ (truncating)
division; a leaf when `left == right` holds `a[left]`; otherwise the two
children cover `[left, mid]` and `[mid+1, right]` and
`value = func(children[0].value, children[1].value)`.
`fuel` bounds the recursion depth (see the module comment). -/
def SegTree.buildRange {α : Type} (f : α → α → α) (a : List α) :
    Nat → Int → Int → Option (SegTree α)
  | 0, _, _ => none
  | fuel + 1, lo, hi =>
    let mid := Int.tdiv (lo + hi) 2
    if lo = hi then
      (listGet? a lo).map (fun v => SegTree.leaf lo hi mid v)
    else do
      let c0 ← SegTree.buildRange f a fuel lo mid
      let c1 ← SegTree.buildRange f a fuel (mid + 1) hi
      pure (SegTree.node lo hi mid (f c0.value c1.value) c0 c1)

/-- The public constructor entry `SegTree(a, func)`: the defaulted
`right == -1` makes the constructor set `left = 0`,
`right = a.size() - 1`.  (On the empty vector `a.size() - 1` is the
unsigned value `SIZE_MAX`, converted to the `int` `-1` on the usual
platforms; the body then reads `a[0]`, out of bounds.)  Recursive calls
reachable from here never pass `right = -1` again, so the defaulting test
lives only in this entry point.  Fuel `a.length + 1` bounds the
construction depth for every list (proved sufficient below). -/
def SegTree.build {α : Type} (f : α → α → α) (a : List α) : Option (SegTree α) :=
  SegTree.buildRange f a (a.length + 1) 0 ((a.length : Int) - 1)

/-- `T rangeQuery(int left, int right)`, lines 57-72 of the source.
Expects left < right (comment from the source).  The branch structure is
exactly that of the source; at a leaf every branch other than the exact
match reads `children[0]` or `children[1]` of an empty vector, which is
UB, modelled as `none`. -/
def SegTree.rangeQuery {α : Type} (f : α → α → α) :
    SegTree α → Int → Int → Option α
  | SegTree.leaf lo hi _ v, l, r =>
      if l = lo ∧ r = hi then some v else none
  | SegTree.node lo hi mid v c0 c1, l, r =>
      if l = lo ∧ r = hi then some v
      else if r ≤ mid then SegTree.rangeQuery f c0 l r
      else if mid < l then SegTree.rangeQuery f c1 l r
      else do
        let leftAns ← SegTree.rangeQuery f c0 l mid
        let rightAns ← SegTree.rangeQuery f c1 (mid + 1) r
        pure (f leftAns rightAns)

/-- `void update(int idx, T newVal)`, lines 74-88 of the source, as a
state-passing function.  When `left == right` the node's value is
overwritten regardless of `idx`; otherwise the update descends left when
`idx <= mid` and right when `idx > mid`, and on return the value is
recomputed as `func(children[0].value, children[1].value)`.  On a leaf
with `left != right` (never produced by the constructor) the child access
is UB, modelled `none`. -/
def SegTree.update {α : Type} (f : α → α → α) :
    SegTree α → Int → α → Option (SegTree α)
  | SegTree.leaf lo hi mid v, _, newVal =>
      if lo = hi then some (SegTree.leaf lo hi mid newVal) else none
  | SegTree.node lo hi mid v c0 c1, idx, newVal =>
      if lo = hi then some (SegTree.node lo hi mid newVal c0 c1)
      else if idx ≤ mid then do
        let c0n ← SegTree.update f c0 idx newVal
        pure (SegTree.node lo hi mid (f c0n.value c1.value) c0n c1)
      else do
        let c1n ← SegTree.update f c1 idx newVal
        pure (SegTree.node lo hi mid (f c0.value c1n.value) c0 c1n)

/-- A sequence of `update` calls, applied left to right. -/
def SegTree.applyUpdates {α : Type} (f : α → α → α) :
    List (Int × α) → SegTree α → Option (SegTree α)
  | [], t => some t
  | (i, v) :: rest, t => (SegTree.update f t i v).bind (SegTree.applyUpdates f rest)

/-- The spec's invariant for internal nodes: the cached `value` equals
`combine(children[0].value, children[1].value)`, recursively. -/
def SegTree.Consistent {α : Type} (f : α → α → α) : SegTree α → Prop
  | SegTree.leaf _ _ _ _ => True
  | SegTree.node _ _ _ v c0 c1 =>
      v = f c0.value c1.value ∧ SegTree.Consistent f c0 ∧ SegTree.Consistent f c1

/-- The inclusive slice `values[lo..hi]` of the backing sequence. -/
def sliceList {α : Type} (a : List α) (lo hi : Int) : List α :=
  (a.drop lo.toNat).take (hi + 1 - lo).toNat

/-- Left-to-right fold of a combiner over a non-empty list
(`none` on the empty list). -/
def fold1 {α : Type} (f : α → α → α) : List α → Option α
  | [] => none
  | x :: xs => some (xs.foldl f x)

/-- The spec-side reference result: `combine` applied left-to-right over
`values[lo..hi]` by a direct linear scan. -/
def linearFold {α : Type} (f : α → α → α) (a : List α) (lo hi : Int) : Option α :=
  fold1 f (sliceList a lo hi)

/-- `std::min` on `pair<int,int>` with the lexicographic `operator<`:
`min(a, b)` returns `b` exactly when `b < a` (ties keep the first
argument).  This is `RMQ<pair<int,int>>::getMin`, line 104. -/
def getMin (p q : Int × Int) : Int × Int :=
  if q.1 < p.1 ∨ (q.1 = p.1 ∧ q.2 < p.2) then q else p

/-- The mutable state threaded through `LCA::dfs`: the Euler-tour vector
`rmqVec` of `(depth, node)` pairs and the vector `nodeToRMQIndex`. -/
structure DfsState : Type where
  rmqVec : List (Int × Int)
  nodeToRMQIndex : List Int

/-- `LCA::dfs(node, currDepth, neighbors, rmqVec)`, lines 135-147: push
`(currDepth, node)`, record `rmqVec.size() - 1` in `nodeToRMQIndex[node]`
(an out-of-bounds write is UB, hence `none`), then for each child recurse
with depth `currDepth + 1` and push the parent pair again.  `fuel` bounds
the recursion depth: on a malformed (cyclic) input the C++ recursion never
terminates, which corresponds to `none` for every fuel. -/
def LCA.dfs (neighbors : List (List Int)) :
    Nat → Int → Int → DfsState → Option DfsState
  | 0, _, _, _ => none
  | fuel + 1, node, currDepth, s => do
      let curr : Int × Int := (currDepth, node)
      let vec1 := s.rmqVec ++ [curr]
      let map1 ← listSet? s.nodeToRMQIndex node ((vec1.length : Int) - 1)
      let cs ← listGet? neighbors node
      cs.foldlM
        (fun st c => do
          let stn ← LCA.dfs neighbors fuel c (currDepth + 1) st
          pure (DfsState.mk (stn.rmqVec ++ [curr]) stn.nodeToRMQIndex))
        (DfsState.mk vec1 map1)

/-- The `LCA` struct, lines 117-123: the vector `nodeToRMQIndex` and the
RMQ (a `SegTree` of `(depth, node)` pairs with combiner `getMin`). -/
structure LCAStruct : Type where
  nodeToRMQIndex : List Int
  rmq : SegTree (Int × Int)

/-- The `LCA(root, neighbors)` constructor, lines 125-133:
`nodeToRMQIndex.resize(neighbors.size())` default-fills the vector with
`0`; `dfs(root, 0, ...)` populates the tour and the index vector; the RMQ
is the `SegTree` built over the tour with `getMin`. -/
def LCA.build (root : Int) (neighbors : List (List Int)) (fuel : Nat) :
    Option LCAStruct := do
  let s ← LCA.dfs neighbors fuel root 0
    (DfsState.mk [] (List.replicate neighbors.length 0))
  let rmq ← SegTree.build getMin s.rmqVec
  pure (LCAStruct.mk s.nodeToRMQIndex rmq)

/-- `int lcaQuery(int node1, int node2)`, lines 149-155: read the two tour
indices from `nodeToRMQIndex` (an out-of-bounds read is UB, hence
`none`), sort them, range-query the RMQ and return the node component of
the minimum pair. -/
def LCA.lcaQuery (l : LCAStruct) (node1 node2 : Int) : Option Int := do
  let i1 ← listGet? l.nodeToRMQIndex node1
  let i2 ← listGet? l.nodeToRMQIndex node2
  let lohi := if i2 < i1 then (i2, i1) else (i1, i2)
  let result ← SegTree.rangeQuery getMin l.rmq lohi.1 lohi.2
  pure result.2

/-- The driver's test tree (lines 168-171): six 1-indexed node slots,
`neighbors[1] = [2, 5]`, `neighbors[2] = [3, 4]`, node 0 unused. -/
def testNeighbors : List (List Int) := [[], [2, 5], [3, 4], [], [], []]

/-- Integer addition, a concrete associative combiner for witnesses. -/
def addI (x y : Int) : Int := x + y

/-- Integer minimum via `if`, a concrete associative combiner. -/
def minI (x y : Int) : Int := if y < x then y else x

/-- Node `n` has a recorded index in `nodeToRMQIndex` that points at one
of its own `(depth, n)` entries in the tour vector. -/
def GoodIdx (s : DfsState) (n : Int) : Prop :=
  ∃ i d, listGet? s.nodeToRMQIndex n = some i ∧ listGet? s.rmqVec i = some (d, n)

/-- One dfs step only appends to the tour and never invalidates a
recorded index. -/
def DfsExtends (s sn : DfsState) : Prop :=
  (∃ ext, sn.rmqVec = s.rmqVec ++ ext) ∧ (∀ n, GoodIdx s n → GoodIdx sn n)

/-- The tree built from `[1, 2, 3]` with the addition combiner
(concrete witness object). -/
def c1tree : SegTree Int :=
  (SegTree.build addI [1, 2, 3]).getD (SegTree.leaf 0 0 0 0)

/-- `c1tree` after `update(1, 10)` (concrete witness object). -/
def c2tree : SegTree Int :=
  ((SegTree.build addI [1, 2, 3]).bind
    (fun t => SegTree.update addI t 1 10)).getD (SegTree.leaf 0 0 0 0)

/-- `c1tree` after the update sequence `[(0, 5)]` (concrete witness
object). -/
def c4tree : SegTree Int :=
  ((SegTree.build addI [1, 2, 3]).bind
    (SegTree.applyUpdates addI [(0, 5)])).getD (SegTree.leaf 0 0 0 0)

/-- The dfs state produced on the driver's test tree (concrete witness
object). -/
def testState : DfsState :=
  (LCA.dfs testNeighbors 10 1 0
    (DfsState.mk [] (List.replicate testNeighbors.length 0))).getD
    (DfsState.mk [] [])

/-- The LCA structure built on the driver's test tree (concrete witness
object). -/
def testLCA : LCAStruct :=
  (LCA.build 1 testNeighbors 10).getD
    (LCAStruct.mk [] (SegTree.leaf 0 0 0 (0, 0)))

/-! ### Arithmetic and list helper lemmas -/

/-- For `0 ≤ lo < hi` the C++ midpoint `(lo + hi) / 2` lies in `[lo, hi)`. -/
theorem mid_bounds {lo hi : Int} (h0 : 0 ≤ lo) (h : lo < hi) :
    lo ≤ Int.tdiv (lo + hi) 2 ∧ Int.tdiv (lo + hi) 2 < hi := by
  rw [Int.tdiv_eq_ediv (by omega) (by norm_num)]
  omega

/-- The midpoint of a degenerate range `[lo, lo]` is `lo`. -/
theorem mid_self (lo : Int) : Int.tdiv (lo + lo) 2 = lo := by
  have h : lo + lo = 2 * lo := by ring
  rw [h]
  exact Int.mul_tdiv_cancel_left lo (by norm_num)

theorem listGet?_bounds {α : Type} {a : List α} {i : Int} {v : α}
    (h : listGet? a i = some v) : 0 ≤ i ∧ i.toNat < a.length := by
  unfold listGet? at h
  split at h
  · rename_i h0
    have h1 := List.getElem?_eq_some.mp h
    exact ⟨h0, h1.1⟩
  · cases h

theorem listGet?_isSome {α : Type} (a : List α) {i : Int} (h0 : 0 ≤ i)
    (h1 : i.toNat < a.length) : ∃ v, listGet? a i = some v := by
  unfold listGet?
  rw [if_pos h0, List.getElem?_eq_getElem h1]
  exact ⟨_, rfl⟩

theorem listGet?_set_ne {α : Type} (a : List α) (j : Nat) (v : α) {i : Int}
    (h : i ≠ (j : Int)) : listGet? (a.set j v) i = listGet? a i := by
  unfold listGet?
  split
  · rename_i h0
    have hne : j ≠ i.toNat := by omega
    rw [List.getElem?_set_ne hne]
  · rfl

theorem listGet?_set_self {α : Type} (a : List α) (j : Nat) (v : α)
    (h : j < a.length) : listGet? (a.set j v) (j : Int) = some v := by
  unfold listGet?
  rw [if_pos (by omega)]
  have h2 : ((j : Int)).toNat = j := by omega
  rw [h2]
  simp [List.getElem?_set_self, h]

/-! ### Fold and slice lemmas for the linear-scan reference -/

theorem foldl_assoc_op {α : Type} {f : α → α → α}
    (hf : ∀ x y z, f (f x y) z = f x (f y z)) (ys : List α) (b c : α) :
    ys.foldl f (f b c) = f b (ys.foldl f c) := by
  induction ys generalizing c with
  | nil => rfl
  | cons z zs ih =>
      simp only [List.foldl_cons]
      rw [hf, ih]

theorem fold1_append {α : Type} {f : α → α → α}
    (hf : ∀ x y z, f (f x y) z = f x (f y z)) {s1 s2 : List α} {u v : α}
    (h1 : fold1 f s1 = some u) (h2 : fold1 f s2 = some v) :
    fold1 f (s1 ++ s2) = some (f u v) := by
  cases s1 with
  | nil => simp [fold1] at h1
  | cons x xs =>
      cases s2 with
      | nil => simp [fold1] at h2
      | cons y ys =>
          simp only [fold1, Option.some.injEq] at h1 h2
          simp only [List.cons_append, fold1, Option.some.injEq]
          rw [List.foldl_append, h1, List.foldl_cons, foldl_assoc_op hf, h2]

theorem sliceList_of_listGet? {α : Type} {a : List α} {i : Int} {v : α}
    (h : listGet? a i = some v) : sliceList a i i = [v] := by
  obtain ⟨h0, h1⟩ := listGet?_bounds h
  unfold listGet? at h
  rw [if_pos h0, List.getElem?_eq_getElem h1] at h
  unfold sliceList
  have h2 : (i + 1 - i).toNat = 1 := by omega
  rw [h2, List.drop_eq_getElem_cons h1]
  simp only [List.take_succ_cons, List.take_zero]
  exact congrArg (fun w => [w]) (Option.some.inj h)

theorem sliceList_split {α : Type} (a : List α) (l mid r : Int)
    (h0 : 0 ≤ l) (h1 : l ≤ mid) (h2 : mid < r) :
    sliceList a l mid ++ sliceList a (mid + 1) r = sliceList a l r := by
  unfold sliceList
  have e1 : (r + 1 - l).toNat = (mid + 1 - l).toNat + (r - mid).toNat := by omega
  have e3 : l.toNat + (mid + 1 - l).toNat = (mid + 1).toNat := by omega
  have e4 : (r - mid).toNat = (r + 1 - (mid + 1)).toNat := by omega
  rw [e1, List.take_add, List.drop_drop, e3, e4]

theorem sliceList_ne_nil {α : Type} (a : List α) {l r : Int} (h0 : 0 ≤ l)
    (h1 : l ≤ r) (h2 : r < (a.length : Int)) : sliceList a l r ≠ [] := by
  unfold sliceList
  intro hcon
  have hlen := congrArg List.length hcon
  simp only [List.length_take, List.length_drop, List.length_nil] at hlen
  omega

theorem linearFold_isSome {α : Type} (f : α → α → α) (a : List α) (l r : Int)
    (h0 : 0 ≤ l) (h1 : l ≤ r) (h2 : r < (a.length : Int)) :
    ∃ u, linearFold f a l r = some u := by
  unfold linearFold
  cases hs : sliceList a l r with
  | nil => exact absurd hs (sliceList_ne_nil a h0 h1 h2)
  | cons x xs => exact ⟨xs.foldl f x, rfl⟩

theorem linearFold_self {α : Type} (f : α → α → α) {a : List α} {i : Int}
    {v : α} (h : listGet? a i = some v) : linearFold f a i i = some v := by
  unfold linearFold
  rw [sliceList_of_listGet? h]
  rfl

/-! ### Structure of constructed trees -/

theorem buildRange_inv_leaf {α : Type} {f : α → α → α} {a : List α}
    {fuel : Nat} {lo : Int} {t : SegTree α}
    (hb : SegTree.buildRange f a (fuel + 1) lo lo = some t) :
    ∃ v, listGet? a lo = some v ∧ t = SegTree.leaf lo lo lo v := by
  cases hget : listGet? a lo with
  | none => simp [SegTree.buildRange, hget] at hb
  | some v =>
      refine ⟨v, rfl, ?_⟩
      simp [SegTree.buildRange, hget, mid_self] at hb
      exact hb.symm

theorem buildRange_inv_node {α : Type} {f : α → α → α} {a : List α}
    {fuel : Nat} {lo hi : Int} {t : SegTree α} (hne : lo ≠ hi)
    (hb : SegTree.buildRange f a (fuel + 1) lo hi = some t) :
    ∃ c0 c1, SegTree.buildRange f a fuel lo (Int.tdiv (lo + hi) 2) = some c0 ∧
      SegTree.buildRange f a fuel (Int.tdiv (lo + hi) 2 + 1) hi = some c1 ∧
      t = SegTree.node lo hi (Int.tdiv (lo + hi) 2) (f c0.value c1.value) c0 c1 := by
  cases hc0 : SegTree.buildRange f a fuel lo (Int.tdiv (lo + hi) 2) with
  | none => simp [SegTree.buildRange, if_neg hne, hc0] at hb
  | some c0 =>
      cases hc1 : SegTree.buildRange f a fuel (Int.tdiv (lo + hi) 2 + 1) hi with
      | none => simp [SegTree.buildRange, if_neg hne, hc0, hc1] at hb
      | some c1 =>
          refine ⟨c0, c1, rfl, rfl, ?_⟩
          simp [SegTree.buildRange, if_neg hne, hc0, hc1] at hb
          exact hb.symm

theorem buildRange_isSome {α : Type} (f : α → α → α) (a : List α) :
    ∀ (fuel : Nat) (lo hi : Int), 0 ≤ lo → lo ≤ hi → hi < (a.length : Int) →
      (hi - lo).toNat < fuel → ∃ t, SegTree.buildRange f a fuel lo hi = some t := by
  intro fuel
  induction fuel with
  | zero => intro lo hi _ _ _ hf; omega
  | succ n ih =>
      intro lo hi h0 hle hlen hf
      by_cases heq : lo = hi
      · subst heq
        obtain ⟨v, hv⟩ := listGet?_isSome a h0 (by omega)
        refine ⟨SegTree.leaf lo lo lo v, ?_⟩
        simp [SegTree.buildRange, mid_self, hv]
      · have hlt2 : lo < hi := lt_of_le_of_ne hle heq
        obtain ⟨hm1, hm2⟩ := mid_bounds h0 hlt2
        obtain ⟨c0, hc0⟩ := ih lo (Int.tdiv (lo + hi) 2) h0 hm1 (by omega) (by omega)
        obtain ⟨c1, hc1⟩ := ih (Int.tdiv (lo + hi) 2 + 1) hi (by omega) (by omega) hlen (by omega)
        refine ⟨SegTree.node lo hi (Int.tdiv (lo + hi) 2) (f c0.value c1.value) c0 c1, ?_⟩
        simp [SegTree.buildRange, if_neg heq, hc0, hc1]

/-- The cached value of every constructed (sub)tree is the left-to-right
fold of the corresponding slice of the input. -/
theorem buildRange_value {α : Type} {f : α → α → α}
    (hf : ∀ x y z, f (f x y) z = f x (f y z)) (a : List α) :
    ∀ (fuel : Nat) (lo hi : Int) (t : SegTree α),
      SegTree.buildRange f a fuel lo hi = some t →
      0 ≤ lo → lo ≤ hi →
      linearFold f a lo hi = some t.value := by
  intro fuel
  induction fuel with
  | zero => intro lo hi t hb _ _; simp [SegTree.buildRange] at hb
  | succ n ih =>
      intro lo hi t hb h0 hle
      by_cases heq : lo = hi
      · subst heq
        obtain ⟨v, hv, ht⟩ := buildRange_inv_leaf hb
        subst ht
        exact linearFold_self f hv
      · have hlt : lo < hi := lt_of_le_of_ne hle heq
        obtain ⟨hm1, hm2⟩ := mid_bounds h0 hlt
        obtain ⟨c0, c1, hc0, hc1, ht⟩ := buildRange_inv_node heq hb
        subst ht
        have hv0 := ih lo (Int.tdiv (lo + hi) 2) c0 hc0 h0 hm1
        have hv1 := ih (Int.tdiv (lo + hi) 2 + 1) hi c1 hc1 (by omega) (by omega)
        unfold linearFold at hv0 hv1 ⊢
        rw [← sliceList_split a lo (Int.tdiv (lo + hi) 2) hi h0 hm1 hm2]
        exact fold1_append hf hv0 hv1

/-- Fold correctness on every constructed subtree: querying any subrange
`[l, r]` of a tree constructed over `[lo, hi]` returns the linear-scan
fold of `values[l..r]`. -/
theorem buildRange_rangeQuery {α : Type} {f : α → α → α}
    (hf : ∀ x y z, f (f x y) z = f x (f y z)) (a : List α) :
    ∀ (fuel : Nat) (lo hi l r : Int) (t : SegTree α),
      SegTree.buildRange f a fuel lo hi = some t →
      0 ≤ lo → hi < (a.length : Int) →
      lo ≤ l → l ≤ r → r ≤ hi →
      SegTree.rangeQuery f t l r = linearFold f a l r := by
  intro fuel
  induction fuel with
  | zero => intro lo hi l r t hb _ _ _ _ _; simp [SegTree.buildRange] at hb
  | succ n ih =>
      intro lo hi l r t hb h0 hlen h1 h2 h3
      by_cases heq : lo = hi
      · subst heq
        obtain ⟨v, hv, ht⟩ := buildRange_inv_leaf hb
        subst ht
        have hl : l = lo := by omega
        have hr : r = lo := by omega
        subst hl
        subst hr
        simp only [SegTree.rangeQuery, and_self, if_pos rfl, if_true]
        exact (linearFold_self f hv).symm
      · have hlt : lo < hi := by omega
        obtain ⟨hm1, hm2⟩ := mid_bounds h0 hlt
        obtain ⟨c0, c1, hc0, hc1, ht⟩ := buildRange_inv_node heq hb
        subst ht
        by_cases hexact : l = lo ∧ r = hi
        · have hval := buildRange_value hf a (n + 1) lo hi _ hb h0 (by omega)
          obtain ⟨heql, heqr⟩ := hexact
          subst heql
          subst heqr
          simp only [SegTree.rangeQuery, and_self, if_pos rfl, if_true]
          simpa [SegTree.value] using hval.symm
        · by_cases hcase1 : r ≤ Int.tdiv (lo + hi) 2
          · simp only [SegTree.rangeQuery, if_neg hexact, if_pos hcase1]
            exact ih lo (Int.tdiv (lo + hi) 2) l r c0 hc0 h0 (by omega) h1 h2 hcase1
          · by_cases hcase2 : Int.tdiv (lo + hi) 2 < l
            · simp only [SegTree.rangeQuery, if_neg hexact, if_neg hcase1, if_pos hcase2]
              exact ih (Int.tdiv (lo + hi) 2 + 1) hi l r c1 hc1 (by omega) hlen
                (by omega) h2 h3
            · have e0 := ih lo (Int.tdiv (lo + hi) 2) l (Int.tdiv (lo + hi) 2) c0 hc0
                h0 (by omega) h1 (by omega) le_rfl
              have e1 := ih (Int.tdiv (lo + hi) 2 + 1) hi (Int.tdiv (lo + hi) 2 + 1) r c1 hc1
                (by omega) hlen le_rfl (by omega) h3
              obtain ⟨u, hu⟩ := linearFold_isSome f a l (Int.tdiv (lo + hi) 2)
                (by omega) (by omega) (by omega)
              obtain ⟨w, hw⟩ := linearFold_isSome f a (Int.tdiv (lo + hi) 2 + 1) r
                (by omega) (by omega) (by omega)
              simp only [SegTree.rangeQuery, if_neg hexact, if_neg hcase1, if_neg hcase2]
              rw [e0, e1, hu, hw]
              unfold linearFold at hu hw ⊢
              rw [← sliceList_split a l (Int.tdiv (lo + hi) 2) r (by omega) (by omega) (by omega),
                fold1_append hf hu hw]
              rfl

/-- Construction only reads the slice `[lo, hi]` of the input list. -/
theorem buildRange_congr {α : Type} (f : α → α → α) (a b : List α) :
    ∀ (fuel : Nat) (lo hi : Int), 0 ≤ lo → lo ≤ hi →
      (∀ i : Int, lo ≤ i → i ≤ hi → listGet? a i = listGet? b i) →
      SegTree.buildRange f a fuel lo hi = SegTree.buildRange f b fuel lo hi := by
  intro fuel
  induction fuel with
  | zero => intro lo hi _ _ _; rfl
  | succ n ih =>
      intro lo hi h0 hle hag
      by_cases heq : lo = hi
      · subst heq
        have e : ∀ c : List α, SegTree.buildRange f c (n + 1) lo lo =
            (listGet? c lo).map (fun v => SegTree.leaf lo lo lo v) := by
          intro c
          simp [SegTree.buildRange, mid_self]
        rw [e a, e b, hag lo le_rfl le_rfl]
      · have hlt : lo < hi := lt_of_le_of_ne hle heq
        obtain ⟨hm1, hm2⟩ := mid_bounds h0 hlt
        simp only [SegTree.buildRange, if_neg heq]
        rw [ih lo (Int.tdiv (lo + hi) 2) h0 hm1
            (fun i hi1 hi2 => hag i (by omega) (by omega)),
          ih (Int.tdiv (lo + hi) 2 + 1) hi (by omega) (by omega)
            (fun i hi1 hi2 => hag i (by omega) (by omega))]

/-- Construction succeeds on a second list of the same length whenever it
succeeds on the first (only positions read matter, and lengths bound
them). -/
theorem buildRange_isSome_congr {α : Type} (f : α → α → α) (a b : List α)
    (hlen : b.length = a.length) :
    ∀ (fuel : Nat) (lo hi : Int) (t : SegTree α),
      SegTree.buildRange f a fuel lo hi = some t →
      ∃ u, SegTree.buildRange f b fuel lo hi = some u := by
  intro fuel
  induction fuel with
  | zero => intro lo hi t hb; simp [SegTree.buildRange] at hb
  | succ n ih =>
      intro lo hi t hb
      by_cases heq : lo = hi
      · subst heq
        obtain ⟨v, hv, _⟩ := buildRange_inv_leaf hb
        obtain ⟨h0, hbnd⟩ := listGet?_bounds hv
        obtain ⟨w, hw⟩ := listGet?_isSome b h0 (by omega)
        exact ⟨SegTree.leaf lo lo lo w, by simp [SegTree.buildRange, mid_self, hw]⟩
      · obtain ⟨c0, c1, hc0, hc1, _⟩ := buildRange_inv_node heq hb
        obtain ⟨u0, hu0⟩ := ih lo (Int.tdiv (lo + hi) 2) c0 hc0
        obtain ⟨u1, hu1⟩ := ih (Int.tdiv (lo + hi) 2 + 1) hi c1 hc1
        exact ⟨SegTree.node lo hi (Int.tdiv (lo + hi) 2) (f u0.value u1.value) u0 u1,
          by simp [SegTree.buildRange, if_neg heq, hu0, hu1]⟩

/-- `update` on a constructed tree: the descent compares `idx` only
against each node's `mid`, so the written leaf is the one at `idx`
clamped into `[lo, hi]`, and the result is exactly the tree constructed
from the correspondingly updated list. -/
theorem buildRange_update_clamp {α : Type} (f : α → α → α) (a : List α) :
    ∀ (fuel : Nat) (lo hi : Int) (t : SegTree α) (idx : Int) (v : α),
      SegTree.buildRange f a fuel lo hi = some t →
      0 ≤ lo → lo ≤ hi → hi < (a.length : Int) →
      SegTree.update f t idx v =
        SegTree.buildRange f (a.set (min (max idx lo) hi).toNat v) fuel lo hi := by
  intro fuel
  induction fuel with
  | zero => intro lo hi t idx v hb _ _ _; simp [SegTree.buildRange] at hb
  | succ n ih =>
      intro lo hi t idx v hb h0 hle hlen
      by_cases heq : lo = hi
      · subst heq
        obtain ⟨w, hw, ht⟩ := buildRange_inv_leaf hb
        subst ht
        have hj : min (max idx lo) lo = lo := by omega
        rw [hj]
        have hset := listGet?_set_self a lo.toNat v (by omega)
        have hcast : ((lo.toNat : Nat) : Int) = lo := by omega
        rw [hcast] at hset
        simp [SegTree.update, SegTree.buildRange, mid_self, hset]
      · have hlt : lo < hi := lt_of_le_of_ne hle heq
        obtain ⟨hm1, hm2⟩ := mid_bounds h0 hlt
        obtain ⟨c0, c1, hc0, hc1, ht⟩ := buildRange_inv_node heq hb
        subst ht
        by_cases hidx : idx ≤ Int.tdiv (lo + hi) 2
        · have hj : min (max idx lo) hi = min (max idx lo) (Int.tdiv (lo + hi) 2) := by
            omega
          have hrec := ih lo (Int.tdiv (lo + hi) 2) c0 idx v hc0 h0 hm1 (by omega)
          have hc1b : SegTree.buildRange f
              (a.set (min (max idx lo) (Int.tdiv (lo + hi) 2)).toNat v) n
              (Int.tdiv (lo + hi) 2 + 1) hi = some c1 := by
            rw [buildRange_congr f _ a n (Int.tdiv (lo + hi) 2 + 1) hi (by omega) (by omega)
              (fun i hi1 hi2 => listGet?_set_ne a _ v (by omega))]
            exact hc1
          obtain ⟨c0n, hc0n⟩ := buildRange_isSome_congr f a
            (a.set (min (max idx lo) (Int.tdiv (lo + hi) 2)).toNat v)
            (by simp) n lo (Int.tdiv (lo + hi) 2) c0 hc0
          rw [hj]
          simp only [SegTree.update, if_neg heq, if_pos hidx]
          simp only [SegTree.buildRange, if_neg heq]
          rw [hrec, hc0n, hc1b]
          rfl
        · have hj : min (max idx lo) hi = min (max idx (Int.tdiv (lo + hi) 2 + 1)) hi := by
            omega
          have hrec := ih (Int.tdiv (lo + hi) 2 + 1) hi c1 idx v hc1 (by omega) (by omega) hlen
          have hc0b : SegTree.buildRange f
              (a.set (min (max idx (Int.tdiv (lo + hi) 2 + 1)) hi).toNat v) n
              lo (Int.tdiv (lo + hi) 2) = some c0 := by
            rw [buildRange_congr f _ a n lo (Int.tdiv (lo + hi) 2) h0 hm1
              (fun i hi1 hi2 => listGet?_set_ne a _ v (by omega))]
            exact hc0
          obtain ⟨c1n, hc1n⟩ := buildRange_isSome_congr f a
            (a.set (min (max idx (Int.tdiv (lo + hi) 2 + 1)) hi).toNat v)
            (by simp) n (Int.tdiv (lo + hi) 2 + 1) hi c1 hc1
          rw [hj]
          simp only [SegTree.update, if_neg heq, if_neg hidx]
          simp only [SegTree.buildRange, if_neg heq]
          rw [hrec, hc1n, hc0b]
          rfl

/-! ### The public constructor entry -/

theorem build_nil_eq_none {α : Type} (f : α → α → α) :
    SegTree.build f ([] : List α) = none := rfl

theorem build_length_pos {α : Type} {f : α → α → α} {a : List α} {t : SegTree α}
    (hb : SegTree.build f a = some t) : 1 ≤ a.length := by
  cases a with
  | nil => rw [build_nil_eq_none] at hb; cases hb
  | cons x xs => simp

theorem build_isSome {α : Type} (f : α → α → α) (a : List α) (hne : a ≠ []) :
    ∃ t, SegTree.build f a = some t := by
  have hlen : 1 ≤ a.length := List.length_pos.mpr hne
  exact buildRange_isSome f a (a.length + 1) 0 ((a.length : Int) - 1)
    le_rfl (by omega) (by omega) (by omega)

theorem build_rangeQuery {α : Type} {f : α → α → α}
    (hf : ∀ x y z, f (f x y) z = f x (f y z)) {a : List α} {t : SegTree α}
    (hb : SegTree.build f a = some t) (l r : Int)
    (h0 : 0 ≤ l) (h1 : l ≤ r) (h2 : r < (a.length : Int)) :
    SegTree.rangeQuery f t l r = linearFold f a l r :=
  buildRange_rangeQuery hf a (a.length + 1) 0 ((a.length : Int) - 1) l r t hb
    le_rfl (by omega) h0 h1 (by omega)

theorem build_update_clamp {α : Type} (f : α → α → α) {a : List α} {t : SegTree α}
    (hb : SegTree.build f a = some t) (idx : Int) (v : α) :
    SegTree.update f t idx v =
      SegTree.build f (a.set (min (max idx 0) ((a.length : Int) - 1)).toNat v) := by
  have h1 := build_length_pos hb
  unfold SegTree.build at hb ⊢
  rw [List.length_set]
  exact buildRange_update_clamp f a (a.length + 1) 0 ((a.length : Int) - 1) t idx v hb
    le_rfl (by omega) (by omega)

/-- Every constructed (sub)tree satisfies the internal-node invariant. -/
theorem buildRange_consistent {α : Type} (f : α → α → α) (a : List α) :
    ∀ (fuel : Nat) (lo hi : Int) (t : SegTree α),
      SegTree.buildRange f a fuel lo hi = some t → SegTree.Consistent f t := by
  intro fuel
  induction fuel with
  | zero => intro lo hi t hb; simp [SegTree.buildRange] at hb
  | succ n ih =>
      intro lo hi t hb
      by_cases heq : lo = hi
      · subst heq
        obtain ⟨v, _, ht⟩ := buildRange_inv_leaf hb
        subst ht
        simp [SegTree.Consistent]
      · obtain ⟨c0, c1, hc0, hc1, ht⟩ := buildRange_inv_node heq hb
        subst ht
        exact ⟨rfl, ih _ _ _ hc0, ih _ _ _ hc1⟩

/-- A query whose range sticks out of the node's range on either side
fails: the descent eventually reaches a leaf without an exact match and
performs an out-of-bounds `children` access. -/
theorem buildRange_rangeQuery_out {α : Type} (f : α → α → α) (a : List α) :
    ∀ (fuel : Nat) (lo hi l r : Int) (t : SegTree α),
      SegTree.buildRange f a fuel lo hi = some t →
      0 ≤ lo → lo ≤ hi →
      (l < lo ∨ hi < r) →
      SegTree.rangeQuery f t l r = none := by
  intro fuel
  induction fuel with
  | zero => intro lo hi l r t hb _ _ _; simp [SegTree.buildRange] at hb
  | succ n ih =>
      intro lo hi l r t hb h0 hle hout
      by_cases heq : lo = hi
      · subst heq
        obtain ⟨v, _, ht⟩ := buildRange_inv_leaf hb
        subst ht
        simp only [SegTree.rangeQuery]
        rw [if_neg (by omega)]
      · have hlt : lo < hi := lt_of_le_of_ne hle heq
        obtain ⟨hm1, hm2⟩ := mid_bounds h0 hlt
        obtain ⟨c0, c1, hc0, hc1, ht⟩ := buildRange_inv_node heq hb
        subst ht
        simp only [SegTree.rangeQuery]
        rw [if_neg (by omega)]
        by_cases hcase1 : r ≤ Int.tdiv (lo + hi) 2
        · rw [if_pos hcase1]
          exact ih lo (Int.tdiv (lo + hi) 2) l r c0 hc0 h0 hm1 (by omega)
        · rw [if_neg hcase1]
          by_cases hcase2 : Int.tdiv (lo + hi) 2 < l
          · rw [if_pos hcase2]
            exact ih (Int.tdiv (lo + hi) 2 + 1) hi l r c1 hc1 (by omega) (by omega)
              (by omega)
          · rw [if_neg hcase2]
            rcases hout with hout | hout
            · have e0 := ih lo (Int.tdiv (lo + hi) 2) l (Int.tdiv (lo + hi) 2) c0 hc0
                h0 hm1 (Or.inl hout)
              rw [e0]
              rfl
            · have e1 := ih (Int.tdiv (lo + hi) 2 + 1) hi (Int.tdiv (lo + hi) 2 + 1) r c1 hc1
                (by omega) (by omega) (Or.inr hout)
              cases hq0 : SegTree.rangeQuery f c0 l (Int.tdiv (lo + hi) 2) with
              | none => rfl
              | some u => simp [e1]

/-! ### LCA lemmas -/

theorem getMin_assoc :
    ∀ x y z, getMin (getMin x y) z = getMin x (getMin y z) := by
  intro x y z
  obtain ⟨x1, x2⟩ := x
  obtain ⟨y1, y2⟩ := y
  obtain ⟨z1, z2⟩ := z
  simp only [getMin]
  split_ifs <;> first | rfl | (exfalso; omega)

theorem listGet?_append_left {α : Type} {a : List α} (ext : List α) {i : Int}
    {v : α} (h : listGet? a i = some v) : listGet? (a ++ ext) i = some v := by
  obtain ⟨h0, h1⟩ := listGet?_bounds h
  unfold listGet? at h ⊢
  rw [if_pos h0] at h ⊢
  rw [List.getElem?_append_left h1]
  exact h

theorem listGet?_none {α : Type} (a : List α) (i : Int)
    (h : i < 0 ∨ (a.length : Int) ≤ i) : listGet? a i = none := by
  unfold listGet?
  rcases h with h | h
  · rw [if_neg (by omega)]
  · by_cases h0 : 0 ≤ i
    · rw [if_pos h0, List.getElem?_eq_none (by omega)]
    · rw [if_neg h0]

theorem listGet?_snoc_last {α : Type} (v : List α) (x : α) :
    listGet? (v ++ [x]) (((v ++ [x]).length : Int) - 1) = some x := by
  unfold listGet?
  rw [if_pos (by simp)]
  have e : ((((v ++ [x]).length : Int)) - 1).toNat = v.length := by simp
  rw [e, List.getElem?_append_right (le_refl v.length)]
  simp

theorem dfsExtends_refl (s : DfsState) : DfsExtends s s :=
  ⟨⟨[], by simp⟩, fun _ h => h⟩

theorem dfsExtends_trans {s1 s2 s3 : DfsState} (h1 : DfsExtends s1 s2)
    (h2 : DfsExtends s2 s3) : DfsExtends s1 s3 := by
  obtain ⟨⟨e1, he1⟩, hg1⟩ := h1
  obtain ⟨⟨e2, he2⟩, hg2⟩ := h2
  exact ⟨⟨e1 ++ e2, by rw [he2, he1, List.append_assoc]⟩, fun n h => hg2 n (hg1 n h)⟩

theorem dfsExtends_snoc (s : DfsState) (x : Int × Int) :
    DfsExtends s (DfsState.mk (s.rmqVec ++ [x]) s.nodeToRMQIndex) := by
  refine ⟨⟨[x], rfl⟩, ?_⟩
  intro n hn
  obtain ⟨i, d, hm, hv⟩ := hn
  exact ⟨i, d, hm, listGet?_append_left [x] hv⟩

/-- The entry step of `dfs`: pushing `(d, node)` and recording its index
extends the state and makes `node` good. -/
theorem dfs_entry_good (s : DfsState) (node d : Int) (map1 : List Int)
    (hset : listSet? s.nodeToRMQIndex node
      (((s.rmqVec ++ [(d, node)]).length : Int) - 1) = some map1) :
    DfsExtends s (DfsState.mk (s.rmqVec ++ [(d, node)]) map1) ∧
      GoodIdx (DfsState.mk (s.rmqVec ++ [(d, node)]) map1) node := by
  unfold listSet? at hset
  split at hset
  case isFalse => cases hset
  case isTrue hcond =>
    obtain ⟨h0, hlt⟩ := hcond
    have hmap1 : map1 =
        s.nodeToRMQIndex.set node.toNat (((s.rmqVec ++ [(d, node)]).length : Int) - 1) :=
      (Option.some.inj hset).symm
    have hcast : ((node.toNat : Nat) : Int) = node := by omega
    have hgood : GoodIdx (DfsState.mk (s.rmqVec ++ [(d, node)]) map1) node := by
      refine ⟨((s.rmqVec ++ [(d, node)]).length : Int) - 1, d, ?_, ?_⟩
      · show listGet? map1 node = _
        rw [hmap1]
        have h2 := listGet?_set_self s.nodeToRMQIndex node.toNat
          (((s.rmqVec ++ [(d, node)]).length : Int) - 1) hlt
        rw [hcast] at h2
        exact h2
      · show listGet? (s.rmqVec ++ [(d, node)]) _ = _
        exact listGet?_snoc_last s.rmqVec (d, node)
    refine ⟨⟨⟨[(d, node)], rfl⟩, ?_⟩, hgood⟩
    intro n hn
    by_cases hne : n = node
    · subst hne
      exact hgood
    · obtain ⟨i, dn, hm, hv⟩ := hn
      refine ⟨i, dn, ?_, listGet?_append_left [(d, node)] hv⟩
      show listGet? map1 n = _
      rw [hmap1, listGet?_set_ne s.nodeToRMQIndex node.toNat _ (by omega)]
      exact hm

/-- The child loop of `dfs`: folding over the children extends the state,
and every tour entry of the result is either an old entry or belongs to a
good node. -/
theorem dfs_children_good (neighbors : List (List Int)) (fuel : Nat) (d : Int)
    (curr : Int × Int)
    (H : ∀ (c : Int) (s sn : DfsState),
      LCA.dfs neighbors fuel c (d + 1) s = some sn →
      DfsExtends s sn ∧ GoodIdx sn c ∧
        ∀ p : Int × Int, p ∈ sn.rmqVec → p ∈ s.rmqVec ∨ GoodIdx sn p.2) :
    ∀ (cs : List Int) (s sn : DfsState),
      GoodIdx s curr.2 →
      cs.foldlM
        (fun st c => do
          let stn ← LCA.dfs neighbors fuel c (d + 1) st
          pure (DfsState.mk (stn.rmqVec ++ [curr]) stn.nodeToRMQIndex)) s = some sn →
      DfsExtends s sn ∧
        ∀ p : Int × Int, p ∈ sn.rmqVec → p ∈ s.rmqVec ∨ GoodIdx sn p.2 := by
  intro cs
  induction cs with
  | nil =>
      intro s sn _ h
      rw [List.foldlM_nil] at h
      have hs : s = sn := Option.some.inj h
      subst hs
      exact ⟨dfsExtends_refl s, fun p hp => Or.inl hp⟩
  | cons c rest ihc =>
      intro s sn hgood h
      rw [List.foldlM_cons] at h
      cases hdfs : LCA.dfs neighbors fuel c (d + 1) s with
      | none => rw [hdfs] at h; simp at h
      | some st1 =>
          rw [hdfs] at h
          obtain ⟨hx1, _, hmem1⟩ := H c s st1 hdfs
          have hx2 := dfsExtends_snoc st1 curr
          have hgood2 : GoodIdx (DfsState.mk (st1.rmqVec ++ [curr]) st1.nodeToRMQIndex)
              curr.2 :=
            (dfsExtends_trans hx1 hx2).2 curr.2 hgood
          obtain ⟨hx3, hmem3⟩ := ihc (DfsState.mk (st1.rmqVec ++ [curr])
            st1.nodeToRMQIndex) sn hgood2 h
          refine ⟨dfsExtends_trans (dfsExtends_trans hx1 hx2) hx3, ?_⟩
          intro p hp
          rcases hmem3 p hp with hin | hg
          · rcases List.mem_append.mp hin with h1 | h1
            · rcases hmem1 p h1 with h2 | h2
              · exact Or.inl h2
              · exact Or.inr ((dfsExtends_trans hx2 hx3).2 p.2 h2)
            · have hpc : p = curr := by simpa using h1
              rw [hpc]
              exact Or.inr (hx3.2 curr.2 hgood2)
          · exact Or.inr hg

/-- Main dfs invariant: a successful call extends the state, makes the
entered node good, and every tour entry traces back to a good node. -/
theorem dfs_good (neighbors : List (List Int)) :
    ∀ (fuel : Nat) (node d : Int) (s sn : DfsState),
      LCA.dfs neighbors fuel node d s = some sn →
      DfsExtends s sn ∧ GoodIdx sn node ∧
        ∀ p : Int × Int, p ∈ sn.rmqVec → p ∈ s.rmqVec ∨ GoodIdx sn p.2 := by
  intro fuel
  induction fuel with
  | zero => intro node d s sn h; simp [LCA.dfs] at h
  | succ n ih =>
      intro node d s sn h
      simp only [LCA.dfs] at h
      cases hset : listSet? s.nodeToRMQIndex node
          (((s.rmqVec ++ [(d, node)]).length : Int) - 1) with
      | none => rw [hset] at h; simp at h
      | some map1 =>
          rw [hset] at h
          cases hcs : listGet? neighbors node with
          | none => rw [hcs] at h; simp at h
          | some cs =>
              rw [hcs] at h
              obtain ⟨hex1, hgood1⟩ := dfs_entry_good s node d map1 hset
              obtain ⟨hex2, hmem⟩ := dfs_children_good neighbors n d (d, node)
                (fun c s1 s2 hd => ih c (d + 1) s1 s2 hd) cs
                (DfsState.mk (s.rmqVec ++ [(d, node)]) map1) sn hgood1 h
              have hgoodn : GoodIdx sn node := hex2.2 node hgood1
              refine ⟨dfsExtends_trans hex1 hex2, hgoodn, ?_⟩
              intro p hp
              rcases hmem p hp with hin | hg
              · rcases List.mem_append.mp hin with h1 | h1
                · exact Or.inl h1
                · have hpc : p = (d, node) := by simpa using h1
                  subst hpc
                  exact Or.inr hgoodn
              · exact Or.inr hg

/-- The two tour indices are sorted before querying, so the query result
does not depend on the argument order. -/
theorem lcaQuery_symm (l : LCAStruct) (a b : Int) :
    LCA.lcaQuery l a b = LCA.lcaQuery l b a := by
  unfold LCA.lcaQuery
  cases h1 : listGet? l.nodeToRMQIndex a with
  | none =>
      cases h2 : listGet? l.nodeToRMQIndex b with
      | none => rfl
      | some i2 => rfl
  | some i1 =>
      cases h2 : listGet? l.nodeToRMQIndex b with
      | none => rfl
      | some i2 =>
          have hpair : (if i2 < i1 then (i2, i1) else (i1, i2)) =
              (if i1 < i2 then (i1, i2) else (i2, i1)) := by
            split_ifs <;> first | rfl | (rw [Prod.mk.injEq]; omega)
          simp only [Option.bind_eq_bind', Option.some_bind']
          rw [hpair]

/-- A node id outside the bounds of `nodeToRMQIndex` makes `lcaQuery`
fail (out-of-bounds vector read). -/
theorem lcaQuery_oob (l : LCAStruct) (n1 n2 : Int)
    (h : (n1 < 0 ∨ (l.nodeToRMQIndex.length : Int) ≤ n1) ∨
      (n2 < 0 ∨ (l.nodeToRMQIndex.length : Int) ≤ n2)) :
    LCA.lcaQuery l n1 n2 = none := by
  unfold LCA.lcaQuery
  rcases h with h | h
  · rw [listGet?_none _ _ h]
    rfl
  · cases h1 : listGet? l.nodeToRMQIndex n1 with
    | none => rfl
    | some i1 =>
        rw [listGet?_none _ _ h]
        rfl

/-- Self-LCA on a successfully constructed structure: for every node that
occurs in the Euler tour, `lcaQuery(a, a) = a`. -/
theorem lcaQuery_self (root : Int) (neighbors : List (List Int)) (fuel : Nat)
    (s : DfsState)
    (hs : LCA.dfs neighbors fuel root 0
      (DfsState.mk [] (List.replicate neighbors.length 0)) = some s)
    (lca : LCAStruct) (hl : LCA.build root neighbors fuel = some lca)
    (a d : Int) (ha : (d, a) ∈ s.rmqVec) :
    LCA.lcaQuery lca a a = some a := by
  unfold LCA.build at hl
  rw [hs] at hl
  simp only [Option.bind_eq_bind', Option.some_bind'] at hl
  cases hrmq : SegTree.build getMin s.rmqVec with
  | none => rw [hrmq] at hl; cases hl
  | some rmq =>
      rw [hrmq] at hl
      simp only [Option.some_bind'] at hl
      have hlca : lca = LCAStruct.mk s.nodeToRMQIndex rmq := (Option.some.inj hl).symm
      subst hlca
      obtain ⟨_, _, hmem⟩ := dfs_good neighbors fuel root 0 _ s hs
      rcases hmem (d, a) ha with hin | hg
      · simp at hin
      · obtain ⟨i, d2, hmi, hvi⟩ := hg
        obtain ⟨hi0, hilen⟩ := listGet?_bounds hvi
        unfold LCA.lcaQuery
        show (bind (listGet? s.nodeToRMQIndex a) fun i1 =>
          bind (listGet? s.nodeToRMQIndex a) fun i2 =>
            (fun lohi => bind (SegTree.rangeQuery getMin rmq lohi.1 lohi.2)
              fun result => pure result.2) (if i2 < i1 then (i2, i1) else (i1, i2))) =
          some a
        rw [hmi]
        simp only [Option.bind_eq_bind', Option.some_bind', if_neg (lt_irrefl i)]
        have hq := build_rangeQuery getMin_assoc hrmq i i hi0 le_rfl (by omega)
        rw [hq, linearFold_self getMin hvi]
        rfl

theorem set_ne_nil {α : Type} (a : List α) (j : Nat) (v : α)
    (h : 1 ≤ a.length) : a.set j v ≠ [] := by
  intro hcon
  have h2 := congrArg List.length hcon
  simp only [List.length_set, List.length_nil] at h2
  omega

/-! ### Claim theorems -/

/-- C1: for every SegmentTree built from a non-empty sequence `values`
with an associative combine, and every range `0 ≤ low ≤ high ≤ lastIndex`,
`rangeFold(low, high)` equals `combine` applied left-to-right over
`values[low..high]` as computed by a direct linear scan. -/
theorem claim1_rangeFold_correct {α : Type} (f : α → α → α)
    (hf : ∀ x y z, f (f x y) z = f x (f y z)) (a : List α) (t : SegTree α)
    (hb : SegTree.build f a = some t) (low high : Int)
    (h0 : 0 ≤ low) (h1 : low ≤ high) (h2 : high ≤ (a.length : Int) - 1) :
    SegTree.rangeQuery f t low high = linearFold f a low high :=
  build_rangeQuery hf hb low high h0 h1 (by omega)

theorem claim1_witness :
    SegTree.rangeQuery addI c1tree 0 2 = linearFold addI [1, 2, 3] 0 2 ∧
      SegTree.rangeQuery addI c1tree 0 2 = some 6 :=
  ⟨claim1_rangeFold_correct addI (fun x y z => Int.add_assoc x y z) [1, 2, 3]
      c1tree (by rfl) 0 2 (by decide) (by decide) (by decide),
    by decide⟩

/-- C2: after `pointUpdate(i, v)` on a tree built from `values`,
`rangeFold(i, i)` returns `v`, and every valid range containing `i` folds
to the linear scan of `values` with position `i` replaced by `v`. -/
theorem claim2_update_consistent {α : Type} (f : α → α → α)
    (hf : ∀ x y z, f (f x y) z = f x (f y z)) (a : List α) (i : Int) (v : α)
    (hi0 : 0 ≤ i) (hi1 : i ≤ (a.length : Int) - 1)
    (t tn : SegTree α) (hb : SegTree.build f a = some t)
    (hu : SegTree.update f t i v = some tn) :
    SegTree.rangeQuery f tn i i = some v ∧
      ∀ low high : Int, 0 ≤ low → low ≤ i → i ≤ high →
        high ≤ (a.length : Int) - 1 →
        SegTree.rangeQuery f tn low high = linearFold f (a.set i.toNat v) low high := by
  have hlen := build_length_pos hb
  have hclamp := build_update_clamp f hb i v
  have hj : min (max i 0) ((a.length : Int) - 1) = i := by omega
  rw [hj] at hclamp
  rw [hclamp] at hu
  have hcast : ((i.toNat : Nat) : Int) = i := by omega
  constructor
  · rw [build_rangeQuery hf hu i i hi0 le_rfl (by simp; omega)]
    have hset := listGet?_set_self a i.toNat v (by omega)
    rw [hcast] at hset
    exact linearFold_self f hset
  · intro low high hl0 hl1 hh1 hh2
    exact build_rangeQuery hf hu low high hl0 (by omega) (by simp; omega)

theorem claim2_witness :
    SegTree.rangeQuery addI c2tree 1 1 = some 10 ∧
      SegTree.rangeQuery addI c2tree 0 2 = linearFold addI ([1, 2, 3].set 1 10) 0 2 := by
  have h := claim2_update_consistent addI (fun x y z => Int.add_assoc x y z)
    [1, 2, 3] 1 10 (by decide) (by decide) c1tree c2tree (by rfl) (by rfl)
  exact ⟨h.1, h.2 0 2 (by decide) (by decide) (by decide) (by decide)⟩

/-- C3: on the driver's test tree (root 1, children 1 -> [2, 5],
2 -> [3, 4], six 1-indexed slots, node 0 unused) the construction
succeeds and the five queried pairs return 2, 1, 2, 4, 1. -/
theorem claim3_lca_concrete :
    (LCA.build 1 testNeighbors 10).isSome = true ∧
      LCA.lcaQuery testLCA 3 4 = some 2 ∧ LCA.lcaQuery testLCA 3 5 = some 1 ∧
      LCA.lcaQuery testLCA 2 3 = some 2 ∧ LCA.lcaQuery testLCA 4 4 = some 4 ∧
      LCA.lcaQuery testLCA 5 3 = some 1 := by
  decide

/-- C4: every tree reachable by construction followed by any sequence of
in-range updates satisfies the internal-node invariant
`value = combine(children[0].value, children[1].value)`. -/
theorem claim4_invariant {α : Type} (f : α → α → α) (a : List α)
    (t0 : SegTree α) (hb : SegTree.build f a = some t0)
    (us : List (Int × α))
    (hus : ∀ p ∈ us, 0 ≤ p.1 ∧ p.1 ≤ (a.length : Int) - 1)
    (t : SegTree α) (ht : SegTree.applyUpdates f us t0 = some t) :
    SegTree.Consistent f t := by
  clear hus
  suffices h : ∀ (us : List (Int × α)) (b : List α) (t0 t : SegTree α),
      1 ≤ b.length → SegTree.build f b = some t0 →
      SegTree.applyUpdates f us t0 = some t → SegTree.Consistent f t by
    exact h us a t0 t (build_length_pos hb) hb ht
  intro us
  induction us with
  | nil =>
      intro b t0 t hlen hb0 ht0
      have he : t0 = t := Option.some.inj ht0
      subst he
      exact buildRange_consistent f b (b.length + 1) 0 ((b.length : Int) - 1) t0 hb0
  | cons p rest ih =>
      intro b t0 t hlen hb0 ht0
      obtain ⟨i, v⟩ := p
      have hclamp := build_update_clamp f hb0 i v
      obtain ⟨t1, ht1⟩ := build_isSome f
        (b.set (min (max i 0) ((b.length : Int) - 1)).toNat v)
        (set_ne_nil b _ v hlen)
      simp only [SegTree.applyUpdates] at ht0
      rw [hclamp, ht1] at ht0
      exact ih (b.set (min (max i 0) ((b.length : Int) - 1)).toNat v) t1 t
        (by simp; omega) ht1 ht0

theorem claim4_witness : SegTree.Consistent addI c4tree :=
  claim4_invariant addI [1, 2, 3] c1tree (by rfl) [(0, 5)] (by decide)
    c4tree (by rfl)

/-- C5 counterexample: on the tree built from `[1, 2]` with the minimum
combiner, the out-of-range call `pointUpdate(5, 0)` does not fail, and a
subsequent in-range `rangeFold(0, 1)` changes from `1` to `0` - the
structure is modified, contradicting the claim that out-of-range updates
fail with a `RangeError` and leave the structure unmodified. -/
theorem claim5_counterexample :
    ((SegTree.build minI [1, 2]).bind (fun t => SegTree.update minI t 5 0)).isSome
        = true ∧
      (SegTree.build minI [1, 2]).bind
        (fun t => SegTree.rangeQuery minI t 0 1) = some 1 ∧
      ((SegTree.build minI [1, 2]).bind (fun t => SegTree.update minI t 5 0)).bind
        (fun tn => SegTree.rangeQuery minI tn 0 1) = some 0 := by
  decide

/-- C5 amended: an out-of-range `rangeFold` (with `low ≤ high`) fails
(out-of-bounds child access, modelled as `none`) - and, queries being
pure, the structure is unchanged; but an out-of-range `pointUpdate` does
not fail: it succeeds (clamping to a boundary leaf, see C10) and modifies
the structure. -/
theorem claim5_amended {α : Type} (f : α → α → α) (a : List α) (t : SegTree α)
    (hb : SegTree.build f a = some t) :
    (∀ low high : Int, low ≤ high →
      (¬ (0 ≤ low ∧ low ≤ (a.length : Int) - 1) ∨
       ¬ (0 ≤ high ∧ high ≤ (a.length : Int) - 1)) →
      SegTree.rangeQuery f t low high = none) ∧
    (∀ (idx : Int) (v : α),
      ¬ (0 ≤ idx ∧ idx ≤ (a.length : Int) - 1) →
      (SegTree.update f t idx v).isSome = true) := by
  have hlen := build_length_pos hb
  constructor
  · intro low high hlh hout
    exact buildRange_rangeQuery_out f a (a.length + 1) 0 ((a.length : Int) - 1)
      low high t hb le_rfl (by omega) (by omega)
  · intro idx v _
    rw [build_update_clamp f hb idx v]
    obtain ⟨t2, ht2⟩ := build_isSome f
      (a.set (min (max idx 0) ((a.length : Int) - 1)).toNat v)
      (set_ne_nil a _ v hlen)
    rw [ht2]
    rfl

theorem claim5_witness :
    SegTree.rangeQuery addI c1tree 0 5 = none ∧
      (SegTree.update addI c1tree 7 9).isSome = true := by
  have h := claim5_amended addI [1, 2, 3] c1tree (by rfl)
  exact ⟨h.1 0 5 (by decide) (Or.inr (by decide)), h.2 7 9 (by decide)⟩

/-- C6: construction from the empty sequence fails (the modelled
`a.size() - 1 == -1` path reads `a[0]` out of bounds / recurses forever,
i.e. `none` for the canonical fuel - indeed for every fuel), and
construction succeeds for every non-empty input. -/
theorem claim6_empty_fails {α : Type} (f : α → α → α) :
    SegTree.build f ([] : List α) = none ∧
      ∀ a : List α, a ≠ [] → (SegTree.build f a).isSome = true := by
  refine ⟨build_nil_eq_none f, ?_⟩
  intro a hne
  obtain ⟨t, ht⟩ := build_isSome f a hne
  rw [ht]
  rfl

theorem claim6_witness : (SegTree.build addI [5]).isSome = true :=
  (claim6_empty_fails addI).2 [5] (by decide)

/-- C7 counterexample: in the driver's test tree node `0` is a valid
vector slot but never part of the tree (no tour entry mentions it), yet
`lcaQuery(0, 3)` does not fail: the index vector's default `0` maps it to
tour position 0 and the query returns node `1`. -/
theorem claim7_counterexample :
    testState.rmqVec.all (fun p => decide (p.2 ≠ 0)) = true ∧
      LCA.lcaQuery testLCA 0 3 = some 1 := by
  decide

/-- C7 amended: `lcaQuery` fails only when a node id lies outside the
bounds of the `nodeToRMQIndex` vector (an out-of-bounds read); an
in-bounds id that was never part of the tree is silently looked up as
tour index `0` (the vector's default fill) and the query succeeds -
concretely, `lcaQuery(0, 3) = 1` on the test tree. -/
theorem claim7_amended :
    (∀ (l : LCAStruct) (n1 n2 : Int),
      (¬ (0 ≤ n1 ∧ n1 < (l.nodeToRMQIndex.length : Int)) ∨
       ¬ (0 ≤ n2 ∧ n2 < (l.nodeToRMQIndex.length : Int))) →
      LCA.lcaQuery l n1 n2 = none) ∧
    LCA.lcaQuery testLCA 0 3 = some 1 := by
  constructor
  · intro l n1 n2 h
    apply lcaQuery_oob
    rcases h with h | h
    · exact Or.inl (by omega)
    · exact Or.inr (by omega)
  · decide

theorem claim7_witness : LCA.lcaQuery testLCA 6 3 = none :=
  claim7_amended.1 testLCA 6 3 (Or.inl (by decide))

/-- C8: `lcaQuery(a, b) = lcaQuery(b, a)` - the two looked-up tour
indices are sorted before the RMQ query, so the result is symmetric in
the arguments (for every structure and all node ids whatsoever). -/
theorem claim8_symmetry (l : LCAStruct) (a b : Int) :
    LCA.lcaQuery l a b = LCA.lcaQuery l b a :=
  lcaQuery_symm l a b

/-- C9: `lcaQuery(a, a) = a` for every node `a` of the tree (every node
with a tour entry): the RMQ is folded over the single tour index recorded
for `a`, returning that entry, whose node component is `a`. -/
theorem claim9_self_lca (root : Int) (neighbors : List (List Int)) (fuel : Nat)
    (s : DfsState)
    (hs : LCA.dfs neighbors fuel root 0
      (DfsState.mk [] (List.replicate neighbors.length 0)) = some s)
    (lca : LCAStruct) (hl : LCA.build root neighbors fuel = some lca)
    (a d : Int) (ha : (d, a) ∈ s.rmqVec) :
    LCA.lcaQuery lca a a = some a :=
  lcaQuery_self root neighbors fuel s hs lca hl a d ha

theorem claim9_witness : LCA.lcaQuery testLCA 5 5 = some 5 :=
  claim9_self_lca 1 testNeighbors 10 testState (by rfl) testLCA (by rfl)
    5 1 (by decide)

/-- C10: an out-of-range `pointUpdate` clamps instead of rejecting: for
`idx > lastIndex` it writes the new value into the leaf at `lastIndex`,
for `idx < 0` into the leaf at `0`, recomputing all ancestors - the
result is exactly the tree built from the sequence with the boundary
position overwritten, so subsequent folds see the new boundary value. -/
theorem claim10_clamping {α : Type} (f : α → α → α) (a : List α) (t : SegTree α)
    (hb : SegTree.build f a = some t) (idx : Int) (v : α) :
    ((a.length : Int) - 1 < idx →
      SegTree.update f t idx v = SegTree.build f (a.set (a.length - 1) v)) ∧
    (idx < 0 →
      SegTree.update f t idx v = SegTree.build f (a.set 0 v)) := by
  have hlen := build_length_pos hb
  have hclamp := build_update_clamp f hb idx v
  constructor
  · intro hidx
    have hj : (min (max idx 0) ((a.length : Int) - 1)).toNat = a.length - 1 := by
      omega
    rw [hclamp, hj]
  · intro hidx
    have hj : (min (max idx 0) ((a.length : Int) - 1)).toNat = 0 := by omega
    rw [hclamp, hj]

theorem claim10_witness :
    SegTree.update addI c1tree 99 7 = SegTree.build addI ([1, 2, 3].set 2 7) ∧
      SegTree.update addI c1tree (-4) 7 = SegTree.build addI ([1, 2, 3].set 0 7) :=
  ⟨(claim10_clamping addI [1, 2, 3] c1tree (by rfl) 99 7).1 (by decide),
    (claim10_clamping addI [1, 2, 3] c1tree (by rfl) (-4) 7).2 (by decide)⟩
